import Mathlib

/-!
Verification development for the speech-to-order fuzzy matching engine
(`src/services/fuzzy-menu-matcher.ts`).

Modelling conventions:
* JavaScript numbers (prices and match scores) are modelled as rationals `ℚ`.
  All arithmetic the engine performs is embedded through the executable
  helpers `qmk`, `qadd`, `qsub`, `qmul`, `qmax` below, which build rationals
  with `mkRat` so that closed computations reduce inside the kernel.
  `jsRound` models JavaScript `Math.round` (floor of `x + 1/2`).
* Strings are processed character by character; tokens are `List Char`
  (the `data` of a `String`), mirroring the source's character-level
  regular-expression replacements.
* The third-party fuzzy index (`fuse.js`) is external to the repository, so
  an index is modelled as an arbitrary search function
  `List Char → List SearchResult`; every universal theorem quantifies over
  it.  The engine's own code (normalisation, phase logic, sub-phrase scan,
  modifier matching, pricing, result assembly) is embedded directly.
-/

namespace FuzzyMenuMatcher

/-- Executable rational constant `n / d` (uses `mkRat`, which normalises). -/
def qmk (n : Int) (d : Nat) : ℚ := mkRat n d

/-- Executable rational addition. -/
def qadd (a b : ℚ) : ℚ := mkRat (a.num * (b.den : Int) + b.num * (a.den : Int)) (a.den * b.den)

/-- Executable rational negation. -/
def qneg (a : ℚ) : ℚ := mkRat (-a.num) a.den

/-- Executable rational subtraction. -/
def qsub (a b : ℚ) : ℚ := qadd a (qneg b)

/-- Executable rational multiplication. -/
def qmul (a b : ℚ) : ℚ := mkRat (a.num * b.num) (a.den * b.den)

/-- JavaScript `Math.max` on two rationals. -/
def qmax (a b : ℚ) : ℚ := if a ≤ b then b else a

/-- Floor of a rational, computed from its reduced numerator and denominator. -/
def ratFloor (x : ℚ) : Int := x.num.fdiv (x.den : Int)

/-- JavaScript `Math.round`: floor of `x + 1/2` (ties go toward positive infinity). -/
def jsRound (x : ℚ) : Int := ratFloor (qadd x (qmk 1 2))

/-- The engine's two-decimal rounding `Math.round(x * 100) / 100`. -/
def round2 (x : ℚ) : ℚ := qmk (jsRound (qmul x (qmk 100 1))) 100

/-! ## Data model (the TypeScript interfaces of the matcher) -/

/-- `ModifierOption` of the source: name, price delta, default flag. -/
structure ModifierOption where
  name : String
  price : ℚ
  isDefault : Bool
  deriving DecidableEq

/-- `ModifierGroup` of the source. -/
structure ModifierGroup where
  name : String
  required : Bool
  minSelections : Nat
  maxSelections : Nat
  multiSelect : Bool
  options : List ModifierOption
  deriving DecidableEq

/-- `MenuItem` of the source (flattened item with retained category). -/
structure MenuItem where
  name : String
  price : ℚ
  description : String
  category : String
  modifiers : List ModifierGroup
  deriving DecidableEq

/-- `MatchedModifier` of the source. -/
structure MatchedModifier where
  groupName : String
  optionName : String
  optionPrice : ℚ
  deriving DecidableEq

/-- One ranked result of the fuzzy index (`fuse.js` result with
`includeScore`); the score may be absent, the code defaults it to 1. -/
structure SearchResult where
  item : MenuItem
  score : Option ℚ
  deriving DecidableEq

/-- The matcher's state that `parseOrder` actually uses: the built index,
modelled as its search function (queries are joined token characters). -/
structure Matcher where
  search : List Char → List SearchResult

/-- Raw item of an incoming menu snapshot; `description` and `modifiers`
may be absent (the source flattens with `|| ''` and `|| []`). -/
structure RawItem where
  name : String
  price : ℚ
  description : Option String
  modifiers : Option (List ModifierGroup)
  deriving DecidableEq

/-- A category of the menu snapshot. -/
structure Category where
  name : String
  items : List RawItem
  deriving DecidableEq

/-- The menu snapshot handed to the matcher constructor. -/
structure Menu where
  categories : List Category
  deriving DecidableEq

/-- The item summary embedded in a successful parse result. -/
structure ItemSummary where
  name : String
  price : ℚ
  category : String
  description : String
  deriving DecidableEq

/-- One group of `remainingRequiredModifiers` with its full option list. -/
structure RemainingGroup where
  groupName : String
  required : Bool
  options : List ModifierOption
  deriving DecidableEq

/-- The `match` payload of a successful `ParseOrderResult`. -/
structure MatchInfo where
  item : ItemSummary
  confidence : ℚ
  matchedModifiers : List MatchedModifier
  remainingRequiredModifiers : List RemainingGroup
  calculatedPrice : ℚ
  deriving DecidableEq

/-- One entry of `alternativeMatches`. -/
structure AltMatch where
  name : String
  confidence : ℚ
  category : String
  deriving DecidableEq

/-- `ParseOrderResult` of the source.  The source's field `match` is named
`result` here because `match` is a reserved word in Lean. -/
structure ParseOrderResult where
  success : Bool
  result : Option MatchInfo
  alternativeMatches : List AltMatch
  error : Option String
  deriving DecidableEq

/-! ## Normalizer (`normalizeSpeech`) -/

/-- The apostrophe character (kept by the cleaning regex). -/
def apos : Char := Char.ofNat 39

/-- JavaScript regex `\s` on the ASCII range: space, tab, LF, VT, FF, CR. -/
def isJsSpace (c : Char) : Bool :=
  c = ' ' ∨ c = Char.ofNat 9 ∨ c = Char.ofNat 10 ∨ c = Char.ofNat 11 ∨
    c = Char.ofNat 12 ∨ c = Char.ofNat 13

/-- Characters kept by `replace(/[^a-z0-9\s'-]/g, '')`. -/
def keepChar (c : Char) : Bool :=
  ('a' ≤ c ∧ c ≤ 'z') ∨ ('0' ≤ c ∧ c ≤ '9') ∨ isJsSpace c ∨ c = apos ∨ c = '-'

/-- `replace(/\s+/g, ' ')`: collapse every whitespace run to a single space. -/
def collapseWs : List Char → List Char
  | [] => []
  | [c] => [if isJsSpace c then ' ' else c]
  | c1 :: c2 :: rest =>
      if isJsSpace c1 ∧ isJsSpace c2 then collapseWs (c2 :: rest)
      else (if isJsSpace c1 then ' ' else c1) :: collapseWs (c2 :: rest)

/-- `trim()` after whitespace collapsing (only plain spaces can remain). -/
def trimSpaces (l : List Char) : List Char :=
  ((l.dropWhile (fun c => c = ' ')).reverse.dropWhile (fun c => c = ' ')).reverse

/-- `split(' ')`: split on every single space. -/
def splitOnSpace : List Char → List (List Char)
  | [] => [[]]
  | c :: rest =>
      match splitOnSpace rest with
      | [] => if c = ' ' then [[], []] else [[c]]
      | w :: ws => if c = ' ' then [] :: w :: ws else (c :: w) :: ws

/-- The fixed `FILLER_WORDS` table of the source. -/
def fillerWords : List (List Char) :=
  (["a", "an", "the", "with", "and", "please", "i", "want", "can", "get",
    "ill", String.mk ['i', apos, 'l', 'l'], "have", "id", String.mk ['i', apos, 'd'],
    "like", "of", "some", "one", "make",
    "it", "me", "give", "order", "um", "uh", "yeah", "yes", "ok", "okay",
    "so", "just", "also", "do", "you", "to", "for", "my", "on", "in"]).map String.data

/-- `normalizeSpeech`: lowercase, strip characters outside `[a-z0-9\s'-]`,
collapse whitespace, trim, split on spaces, drop fillers and empty words. -/
def normalizeSpeech (speech : String) : List (List Char) :=
  let cleaned := trimSpaces (collapseWs ((speech.data.map Char.toLower).filter keepChar))
  (splitOnSpace cleaned).filter (fun w => ¬ (w ∈ fillerWords) ∧ w.length > 0)

/-- `tokens.join(' ')` (also used for sub-phrase queries). -/
def joinTokens : List (List Char) → List Char
  | [] => []
  | [w] => w
  | w :: ws => w ++ ' ' :: joinTokens ws

/-! ## Similarity primitive (`levenshtein`, `fuzzyWordMatch`) -/

/-- Fuel-indexed form of the source's dynamic-programming edit distance
(the fuel only drives structural recursion so that closed instances reduce
inside the kernel; any fuel above `a.length + b.length` gives the same
value).  The recurrence is the one the source's table memoises: base rows
`dp[i][0] = i` and `dp[0][j] = j`, equal heads take the diagonal,
otherwise `1 + min` of the three neighbouring cells. -/
def levenshteinF : Nat → List Char → List Char → Nat
  | 0, _, _ => 0
  | _ + 1, [], b => b.length
  | _ + 1, a, [] => a.length
  | f + 1, x :: xs, y :: ys =>
      if x = y then levenshteinF f xs ys
      else 1 + min (levenshteinF f xs (y :: ys))
        (min (levenshteinF f (x :: xs) ys) (levenshteinF f xs ys))

/-- `levenshtein` of the source. -/
def levenshtein (a b : List Char) : Nat := levenshteinF (a.length + b.length + 1) a b

/-- Fuel-indexed form of the spec's standard unit-cost Levenshtein
distance: insertions, deletions and substitutions each cost 1, no
transposition. -/
def levFullF : Nat → List Char → List Char → Nat
  | 0, _, _ => 0
  | _ + 1, [], b => b.length
  | _ + 1, a, [] => a.length
  | f + 1, x :: xs, y :: ys =>
      min (1 + levFullF f xs (y :: ys))
        (min (1 + levFullF f (x :: xs) ys) ((if x = y then 0 else 1) + levFullF f xs ys))

/-- The spec's standard unit-cost dynamic-programming Levenshtein distance. -/
def levFull (a b : List Char) : Nat := levFullF (a.length + b.length + 1) a b

/-- The length-scaled tolerance table of `fuzzyWordMatch` (spec §4.2). -/
def tolerance (maxLen : Nat) : Nat :=
  if maxLen ≤ 3 then 0 else if maxLen ≤ 5 then 1 else if maxLen ≤ 8 then 2 else 3

/-- `fuzzyWordMatch` of the source: exact equality, else edit distance
within a tolerance scaled by the longer string's length. -/
def fuzzyWordMatch (a b : List Char) : Bool :=
  if a = b then true
  else
    let distance := levenshtein a b
    let maxLen := max a.length b.length
    if maxLen ≤ 3 then decide (distance ≤ 0)
    else if maxLen ≤ 5 then decide (distance ≤ 1)
    else if maxLen ≤ 8 then decide (distance ≤ 2)
    else decide (distance ≤ 3)

/-! ## Item matcher (`findBestSubPhraseMatch` and the two-phase selection) -/

/-- The running best candidate of the item matcher: item, score
(`fuse` score in phase 1, clamped adjusted score in phase 2) and the
tokens consumed by the item match. -/
structure SubBest where
  item : MenuItem
  score : ℚ
  usedTokens : List (List Char)
  deriving DecidableEq

/-- Inner loop of `findBestSubPhraseMatch`: scan the windows of one length
(given by their start offsets, left to right), keeping the best candidate.
A window with no search results is skipped; otherwise the top result's
score gets the length bonus `- 0.02 × len`, and the candidate replaces the
best exactly when this (unclamped) adjusted score is below the stored
(clamped) best score.  The stored score is `Math.max(0, adjustedScore)`. -/
def scanStarts (search : List Char → List SearchResult) (tokens : List (List Char))
    (len : Nat) : List Nat → Option SubBest → Option SubBest
  | [], best => best
  | start :: rest, best =>
      let subTokens := (tokens.drop start).take len
      match search (joinTokens subTokens) with
      | [] => scanStarts search tokens len rest best
      | r :: _ =>
          let score := r.score.getD (qmk 1 1)
          let adjusted := qsub score (qmul (qmk len 1) (qmk 2 100))
          let best2 :=
            match best with
            | none => some ⟨r.item, qmax (qmk 0 1) adjusted, subTokens⟩
            | some b =>
                if adjusted < b.score then some ⟨r.item, qmax (qmk 0 1) adjusted, subTokens⟩
                else some b
          scanStarts search tokens len rest best2

/-- Outer loop of `findBestSubPhraseMatch`: window lengths from `len` down
to 1; after finishing a length, stop if the best clamped score is < 0.3. -/
def scanLens (search : List Char → List SearchResult) (tokens : List (List Char)) :
    Nat → Option SubBest → Option SubBest
  | 0, best => best
  | len + 1, best =>
      let best2 := scanStarts search tokens (len + 1)
        (List.range (tokens.length - (len + 1) + 1)) best
      match best2 with
      | some b => if b.score < qmk 3 10 then some b else scanLens search tokens len (some b)
      | none => scanLens search tokens len none

/-- `findBestSubPhraseMatch` of the source: try contiguous sub-phrases from
longest to shortest. -/
def findBestSubPhraseMatch (search : List Char → List SearchResult)
    (tokens : List (List Char)) : Option SubBest :=
  scanLens search tokens tokens.length none

/-! ## Modifier matcher (`matchModifiers`) -/

/-- One entry of the flat option candidate list built by `matchModifiers`
(the source also precomputes a whitespace token split of the normalised
name, but never reads it, so it is not recorded here). -/
structure OptEntry where
  group : ModifierGroup
  option : ModifierOption
  normalizedName : List Char
  deriving DecidableEq

/-- Option-name normalisation of `matchModifiers`:
`toLowerCase().replace(/[^a-z0-9\s]/g, '').trim()`. -/
def normalizeOptName (s : String) : List Char :=
  let kept := (s.data.map Char.toLower).filter
    (fun c => ('a' ≤ c ∧ c ≤ 'z') ∨ ('0' ≤ c ∧ c ≤ '9') ∨ isJsSpace c)
  ((kept.dropWhile isJsSpace).reverse.dropWhile isJsSpace).reverse

/-- `replace(/\s+/g, '')`: drop all whitespace (compound-word form). -/
def removeSpaces (l : List Char) : List Char := l.filter (fun c => ¬ isJsSpace c)

/-- The flat list of all (group, option) candidates for an item. -/
def buildOptions (item : MenuItem) : List OptEntry :=
  item.modifiers.flatMap fun g =>
    g.options.map fun o => ⟨g, o, normalizeOptName o.name⟩

/-- The inner option scan of `matchModifiers`: the first candidate option
that textually matches the window (exactly, space-removed, or fuzzily) and
is not blocked by the single-select group rule. -/
def pickOption (matched : List MatchedModifier) (candidate candidateNoSpaces : List Char) :
    List OptEntry → Option OptEntry
  | [] => none
  | o :: rest =>
      let optNoSpaces := removeSpaces o.normalizedName
      if (candidate = o.normalizedName ∨ candidateNoSpaces = optNoSpaces ∨
            fuzzyWordMatch candidate o.normalizedName ∨
            fuzzyWordMatch candidateNoSpaces optNoSpaces) ∧
          ¬ ((matched.any fun mm => mm.groupName = o.group.name) ∧ ¬ o.group.multiSelect) then
        some o
      else pickOption matched candidate candidateNoSpaces rest

/-- JavaScript `array.filter((_, i) => p(i))`: keep elements whose position
satisfies the predicate, preserving order. -/
def filterIdx (l : List α) (p : Nat → Bool) : List α :=
  ((l.enum).filter fun ai => p ai.1).map fun ai => ai.2

/-- State of the window scan of `matchModifiers`: accepted matches and the
set of used token indices (modelled as the list of its members). -/
structure ModState where
  matched : List MatchedModifier
  used : List Nat
  deriving DecidableEq

/-- Process one window `(len, start)` of `matchModifiers`: skip it if any
of its token indices is already used; otherwise accept the first matching
candidate option, consuming the window's indices. -/
def stepWindow (opts : List OptEntry) (tokens : List (List Char))
    (st : ModState) (w : Nat × Nat) : ModState :=
  let indices := (List.range w.1).map (fun i => i + w.2)
  if indices.any (fun i => st.used.contains i) then st
  else
    let candTokens := indices.map (fun i => tokens.getD i [])
    let candidate := joinTokens candTokens
    let candidateNoSpaces := candTokens.flatten
    match pickOption st.matched candidate candidateNoSpaces opts with
    | none => st
    | some o =>
        ⟨st.matched ++ [⟨o.group.name, o.option.name, o.option.price⟩], st.used ++ indices⟩

/-- The window enumeration of `matchModifiers`: lengths `min(n,4)` down to
1, and for each length all start offsets left to right. -/
def windowList (n : Nat) : List (Nat × Nat) :=
  ((List.range (min n 4)).map fun i => min n 4 - i).flatMap fun len =>
    (List.range (n - len + 1)).map fun start => (len, start)

/-- Result of `matchModifiers`. -/
structure ModResult where
  matched : List MatchedModifier
  unmatchedTokens : List (List Char)
  deriving DecidableEq

/-- `matchModifiers` of the source. -/
def matchModifiers (remainingTokens : List (List Char)) (item : MenuItem) : ModResult :=
  if remainingTokens.isEmpty ∨ item.modifiers.isEmpty then ⟨[], remainingTokens⟩
  else
    let st := (windowList remainingTokens.length).foldl
      (stepWindow (buildOptions item) remainingTokens) ⟨[], []⟩
    ⟨st.matched, filterIdx remainingTokens fun i => ¬ st.used.contains i⟩

/-! ## Result assembly and `parseOrder` -/

/-- Flatten the category tree into the item list (constructor phase). -/
def flattenMenu (menu : Menu) : List MenuItem :=
  menu.categories.flatMap fun c =>
    c.items.map fun it =>
      ⟨it.name, it.price, it.description.getD "", c.name, it.modifiers.getD []⟩

/-- The tokens left for modifier matching: filtering is by token VALUE
(`!usedTokensForItem.includes(t)`), not by position. -/
def remainingAfterItem (tokens used : List (List Char)) : List (List Char) :=
  tokens.filter fun t => ¬ used.contains t

/-- Alternative entry for a search result:
confidence `round((1 - score) × 100) / 100`. -/
def altOf (r : SearchResult) : AltMatch :=
  ⟨r.item.name, round2 (qsub (qmk 1 1) (r.score.getD (qmk 1 1))), r.item.category⟩

/-- Package a modifier group for `remainingRequiredModifiers`. -/
def packageGroup (g : ModifierGroup) : RemainingGroup :=
  ⟨g.name, g.required, g.options.map fun o => ⟨o.name, o.price, o.isDefault⟩⟩

/-- The failure result of `parseOrder` when no acceptable item was found:
alternatives come from `allResults` if nonempty, else from the full-phrase
results, and the message distinguishes weak match from no match. -/
def noMatchResult (allResults fullResults : List SearchResult) : ParseOrderResult :=
  let base := if allResults.isEmpty then fullResults else allResults
  let alts := (base.take 3).map altOf
  ⟨false, none, alts,
    some (if alts.isEmpty then "No matching menu item found"
      else "No strong match found. Did you mean one of the alternatives?")⟩

/-- The `match` payload built on the success path of `parseOrder`. -/
def successInfo (b : SubBest) (tokens : List (List Char)) : MatchInfo :=
  let mm := matchModifiers (remainingAfterItem tokens b.usedTokens) b.item
  let matchedGroupNames := mm.matched.map fun m => m.groupName
  ⟨⟨b.item.name, b.item.price, b.item.category, b.item.description⟩,
    round2 (qsub (qmk 1 1) b.score),
    mm.matched,
    ((b.item.modifiers.filter fun g =>
        g.required ∧ ¬ matchedGroupNames.contains g.name).map packageGroup),
    round2 (qadd b.item.price (mm.matched.foldl (fun s m => qadd s m.optionPrice) (qmk 0 1)))⟩

/-- The success result of `parseOrder`. -/
def successResult (b : SubBest) (tokens : List (List Char))
    (allResults fullResults : List SearchResult) : ParseOrderResult :=
  let base := if allResults.isEmpty then fullResults else allResults
  ⟨true, some (successInfo b tokens),
    (((base.filter fun r => r.item.name ≠ b.item.name).take 3).map altOf), none⟩

/-- The full-phrase search of phase 1. -/
def fullSearch (m : Matcher) (tokens : List (List Char)) : List SearchResult :=
  m.search (joinTokens tokens)

/-- Phase 2 of the item matcher, producing the best candidate and the
result list used for alternatives. -/
def itemPhase2 (m : Matcher) (tokens : List (List Char))
    (fullResults : List SearchResult) : Option SubBest × List SearchResult :=
  match findBestSubPhraseMatch m.search tokens with
  | some sub => (some sub, m.search (joinTokens sub.usedTokens))
  | none => (none, fullResults)

/-- The two-phase item selection of `parseOrder`: a full-phrase result with
score < 0.3 is accepted immediately (consuming all tokens); otherwise the
sub-phrase search runs. -/
def itemPhase (m : Matcher) (tokens : List (List Char)) :
    Option SubBest × List SearchResult :=
  match fullSearch m tokens with
  | r :: _ =>
      if r.score.getD (qmk 1 1) < qmk 3 10 then
        (some ⟨r.item, r.score.getD (qmk 1 1), tokens⟩, fullSearch m tokens)
      else itemPhase2 m tokens (fullSearch m tokens)
  | [] => itemPhase2 m tokens (fullSearch m tokens)

/-- `parseOrder` of the source. -/
def parseOrder (m : Matcher) (speech : String) : ParseOrderResult :=
  if (normalizeSpeech speech).isEmpty then
    ⟨false, none, [], some "No meaningful words found in speech"⟩
  else
    match (itemPhase m (normalizeSpeech speech)).1 with
    | none =>
        noMatchResult (itemPhase m (normalizeSpeech speech)).2
          (fullSearch m (normalizeSpeech speech))
    | some b =>
        if qmk 5 10 < b.score then
          noMatchResult (itemPhase m (normalizeSpeech speech)).2
            (fullSearch m (normalizeSpeech speech))
        else
          successResult b (normalizeSpeech speech)
            (itemPhase m (normalizeSpeech speech)).2
            (fullSearch m (normalizeSpeech speech))

/-! ## Instrumented modifier matcher (records the window of each accepted
match, for the disjointness invariant; projecting away the extra field
recovers the source fold exactly) -/

/-- `ModState` extended with the consumed index window of each accepted
match, in acceptance order. -/
structure ModStateW where
  matched : List MatchedModifier
  used : List Nat
  windows : List (List Nat)
  deriving DecidableEq

/-- `stepWindow` with window recording. -/
def stepWindowW (opts : List OptEntry) (tokens : List (List Char))
    (st : ModStateW) (w : Nat × Nat) : ModStateW :=
  let indices := (List.range w.1).map (fun i => i + w.2)
  if indices.any (fun i => st.used.contains i) then st
  else
    let candTokens := indices.map (fun i => tokens.getD i [])
    let candidate := joinTokens candTokens
    let candidateNoSpaces := candTokens.flatten
    match pickOption st.matched candidate candidateNoSpaces opts with
    | none => st
    | some o =>
        ⟨st.matched ++ [⟨o.group.name, o.option.name, o.option.price⟩],
          st.used ++ indices, st.windows ++ [indices]⟩

/-- Result of the instrumented modifier matcher. -/
structure ModResultW where
  matched : List MatchedModifier
  unmatchedTokens : List (List Char)
  windows : List (List Nat)
  deriving DecidableEq

/-- `matchModifiers` with window recording. -/
def matchModifiersW (remainingTokens : List (List Char)) (item : MenuItem) : ModResultW :=
  if remainingTokens.isEmpty ∨ item.modifiers.isEmpty then ⟨[], remainingTokens, []⟩
  else
    let st := (windowList remainingTokens.length).foldl
      (stepWindowW (buildOptions item) remainingTokens) ⟨[], [], []⟩
    ⟨st.matched, filterIdx remainingTokens (fun i => ¬ st.used.contains i), st.windows⟩

/-! ## C2: the claimed sub-phrase selection, and the amended one

`claimScanStarts`/`claimScanLens` are modelled from the claim's words, NOT
from the source: every examined window is scored
`adjustedScore = max(0, rawScore − 0.02 × len)` and the minimal adjusted
score wins, an earlier-examined window winning ties (so a candidate
replaces the best only when its CLAMPED score is strictly smaller).  The
amended selection (`amendedFindBest`) differs in exactly one point: the
comparison the code performs is `unclamped adjusted < stored clamped best`.
-/

/-- Claimed inner scan: minimal clamped adjusted score, earlier wins ties. -/
def claimScanStarts (search : List Char → List SearchResult) (tokens : List (List Char))
    (len : Nat) : List Nat → Option SubBest → Option SubBest
  | [], best => best
  | start :: rest, best =>
      let subTokens := (tokens.drop start).take len
      match search (joinTokens subTokens) with
      | [] => claimScanStarts search tokens len rest best
      | r :: _ =>
          let adjusted := qmax (qmk 0 1)
            (qsub (r.score.getD (qmk 1 1)) (qmul (qmk len 1) (qmk 2 100)))
          let best2 :=
            match best with
            | none => some ⟨r.item, adjusted, subTokens⟩
            | some b => if adjusted < b.score then some ⟨r.item, adjusted, subTokens⟩ else some b
          claimScanStarts search tokens len rest best2

/-- Claimed outer scan: lengths longest to shortest with the 0.3 stop rule. -/
def claimScanLens (search : List Char → List SearchResult) (tokens : List (List Char)) :
    Nat → Option SubBest → Option SubBest
  | 0, best => best
  | len + 1, best =>
      let best2 := claimScanStarts search tokens (len + 1)
        (List.range (tokens.length - (len + 1) + 1)) best
      match best2 with
      | some b => if b.score < qmk 3 10 then some b else claimScanLens search tokens len (some b)
      | none => claimScanLens search tokens len none

/-- The sub-phrase selection exactly as the claim states it. -/
def claimFindBestSubPhraseMatch (search : List Char → List SearchResult)
    (tokens : List (List Char)) : Option SubBest :=
  claimScanLens search tokens tokens.length none

/-- A scored window candidate carrying its UNCLAMPED adjusted score. -/
structure Cand where
  item : MenuItem
  adjusted : ℚ
  usedTokens : List (List Char)
  deriving DecidableEq

/-- The scored candidate of one window (none if the index returns nothing). -/
def candOf (search : List Char → List SearchResult) (tokens : List (List Char))
    (len start : Nat) : Option Cand :=
  match search (joinTokens ((tokens.drop start).take len)) with
  | [] => none
  | r :: _ =>
      some ⟨r.item, qsub (r.score.getD (qmk 1 1)) (qmul (qmk len 1) (qmk 2 100)),
        (tokens.drop start).take len⟩

/-- All examined candidates of one window length, left to right. -/
def windowCands (search : List Char → List SearchResult) (tokens : List (List Char))
    (len : Nat) : List Cand :=
  (List.range (tokens.length - len + 1)).filterMap (candOf search tokens len)

/-- The amended replacement rule: a later candidate replaces the best
exactly when its unclamped adjusted score is strictly below the clamped
adjusted score of the stored best. -/
def chooseCand (b : Option Cand) (c : Cand) : Option Cand :=
  match b with
  | none => some c
  | some b0 => if c.adjusted < qmax (qmk 0 1) b0.adjusted then some c else some b0

/-- Clamp a candidate into the reported best (`Math.max(0, adjusted)`). -/
def candToBest (c : Cand) : SubBest :=
  ⟨c.item, qmax (qmk 0 1) c.adjusted, c.usedTokens⟩

/-- Level-by-level selection over the examined candidate lists, with the
0.3 stop rule on the clamped best score. -/
def selectLevels (search : List Char → List SearchResult) (tokens : List (List Char)) :
    Nat → Option Cand → Option Cand
  | 0, acc => acc
  | len + 1, acc =>
      let acc2 := (windowCands search tokens (len + 1)).foldl chooseCand acc
      match acc2 with
      | some c =>
          if qmax (qmk 0 1) c.adjusted < qmk 3 10 then some c
          else selectLevels search tokens len (some c)
      | none => selectLevels search tokens len none

/-- The amended sub-phrase selection: fold the examined windows in
examination order under the corrected replacement rule. -/
def amendedFindBest (search : List Char → List SearchResult)
    (tokens : List (List Char)) : Option SubBest :=
  (selectLevels search tokens tokens.length none).map candToBest

/-! ## Concrete menus, matchers and expected results used by witnesses -/

/-- A menu item with no modifiers. -/
def pizzaItem : MenuItem := ⟨"Margherita Pizza", qmk 12 1, "", "Pizza", []⟩

/-- Index of a one-pizza menu: only the exact phrase hits. -/
def pizzaMatcher : Matcher :=
  ⟨fun q => if q = "margherita pizza".data then [⟨pizzaItem, some (qmk 1 10)⟩] else []⟩

/-- Expected match payload for "margherita pizza please". -/
def miPizza : MatchInfo :=
  ⟨⟨"Margherita Pizza", qmk 12 1, "Pizza", ""⟩, qmk 9 10, [], [], qmk 12 1⟩

/-- A required single-select group left unresolved by the utterance. -/
def sideChoice : ModifierGroup :=
  ⟨"Side Choice", true, 1, 1, false, [⟨"Fries", qmk 0 1, false⟩, ⟨"Salad", qmk 1 2, false⟩]⟩

/-- An item with one required modifier group. -/
def burgerItem : MenuItem := ⟨"Burger", qmk 8 1, "", "Mains", [sideChoice]⟩

/-- Index of a one-burger menu. -/
def burgerMatcher : Matcher :=
  ⟨fun q => if q = "burger".data then [⟨burgerItem, some (qmk 1 10)⟩] else []⟩

/-- Expected match payload for "burger": the required group is surfaced. -/
def miBurger : MatchInfo :=
  ⟨⟨"Burger", qmk 8 1, "Mains", ""⟩, qmk 9 10, [],
    [⟨"Side Choice", true, [⟨"Fries", qmk 0 1, false⟩, ⟨"Salad", qmk 1 2, false⟩]⟩], qmk 8 1⟩

/-- A non-multi-select bread group whose two options both occur in the
remaining tokens. -/
def breadChoice : ModifierGroup :=
  ⟨"Bread Choice", true, 1, 1, false, [⟨"rye", qmk 0 1, false⟩, ⟨"oat", qmk 0 1, false⟩]⟩

/-- Item carrying the bread group. -/
def breadItem : MenuItem := ⟨"Sandwich", qmk 7 1, "", "Mains", [breadChoice]⟩

/-- A multi-select extras group with a default option, negative and
sub-cent price deltas (base 14.99, ham −0.99, fig +2.004, oat default). -/
def extrasGroup : ModifierGroup :=
  ⟨"Extras", false, 0, 3, true,
    [⟨"ham", qmk (-99) 100, false⟩, ⟨"fig", qmk 2004 1000, false⟩, ⟨"oat", qmk 1 2, true⟩]⟩

/-- The steak item of the pricing example. -/
def steakItem : MenuItem := ⟨"Steak", qmk 1499 100, "", "Mains", [extrasGroup]⟩

/-- Index for the steak menu: the full phrase matches weakly (0.45), the
word "steak" alone matches strongly (0.05), so phase 2 selects the
one-token window and leaves "ham"/"fig" for the modifier matcher. -/
def steakMatcher : Matcher :=
  ⟨fun q =>
    if q = "steak ham fig".data then [⟨steakItem, some (qmk 45 100)⟩]
    else if q = "steak".data then [⟨steakItem, some (qmk 5 100)⟩]
    else []⟩

/-- Expected match payload for "steak ham fig". -/
def steakMi : MatchInfo :=
  ⟨⟨"Steak", qmk 1499 100, "Mains", ""⟩, qmk 97 100,
    [⟨"Extras", "ham", qmk (-99) 100⟩, ⟨"Extras", "fig", qmk 2004 1000⟩], [], qmk 16 1⟩

/-- Items for the C2 tie-break counterexample. -/
def itemA : MenuItem := ⟨"Alpha", qmk 1 1, "", "C", []⟩

/-- Second counterexample item. -/
def itemX : MenuItem := ⟨"Xray", qmk 1 1, "", "C", []⟩

/-- Third counterexample item. -/
def itemY : MenuItem := ⟨"Yankee", qmk 1 1, "", "C", []⟩

/-- Search function of the C2 counterexample: the full three-token window
scores 0.9, and the two two-token windows both score 0 exactly (two
distinct exact matches at the same level). -/
def searchC2 : List Char → List SearchResult := fun q =>
  if q = "t1 t2 t3".data then [⟨itemA, some (qmk 9 10)⟩]
  else if q = "t1 t2".data then [⟨itemX, some (qmk 0 1)⟩]
  else if q = "t2 t3".data then [⟨itemY, some (qmk 0 1)⟩]
  else []

/-- Token list of the C2 counterexample. -/
def toksC2 : List (List Char) := ["t1".data, "t2".data, "t3".data]

/-! ## Helper lemmas -/

/-- A predicate preserved by each fold step holds for the whole fold. -/
theorem foldlInvariant {α β : Type} (f : α → β → α) (P : α → Prop)
    (h : ∀ a b, P a → P (f a b)) : ∀ (l : List β) (a : α), P a → P (l.foldl f a) := by
  intro l
  induction l with
  | nil => intro a ha; exact ha
  | cons x xs ih => intro a ha; exact ih (f a x) (h a x ha)


/-- A nonempty list has `isEmpty = false`. -/
theorem ne_nil_isEmpty_false {α : Type} {l : List α} (h : l ≠ []) : l.isEmpty = false := by
  cases l with
  | nil => exact absurd rfl h
  | cons a t => rfl

/-- With no meaningful tokens, `parseOrder` reports the empty-utterance
failure. -/
theorem parseOrder_empty_tokens (m : Matcher) (speech : String)
    (h : normalizeSpeech speech = []) :
    parseOrder m speech = ⟨false, none, [], some "No meaningful words found in speech"⟩ := by
  unfold parseOrder
  rw [h]
  rfl

/-- With tokens but no selected candidate, `parseOrder` reports failure. -/
theorem parseOrder_phase_none (m : Matcher) (speech : String)
    (h : normalizeSpeech speech ≠ [])
    (hp : (itemPhase m (normalizeSpeech speech)).1 = none) :
    parseOrder m speech =
      noMatchResult (itemPhase m (normalizeSpeech speech)).2
        (fullSearch m (normalizeSpeech speech)) := by
  unfold parseOrder
  rw [ne_nil_isEmpty_false h]
  simp only [Bool.false_eq_true, if_false]
  rw [hp]

/-- With a selected candidate above the 0.5 ceiling, `parseOrder` fails. -/
theorem parseOrder_weak (m : Matcher) (speech : String) (b : SubBest)
    (h : normalizeSpeech speech ≠ [])
    (hp : (itemPhase m (normalizeSpeech speech)).1 = some b)
    (hs : qmk 5 10 < b.score) :
    parseOrder m speech =
      noMatchResult (itemPhase m (normalizeSpeech speech)).2
        (fullSearch m (normalizeSpeech speech)) := by
  unfold parseOrder
  rw [ne_nil_isEmpty_false h]
  simp only [Bool.false_eq_true, if_false]
  rw [hp]
  simp only [if_pos hs]

/-- With a selected candidate within the ceiling, `parseOrder` succeeds. -/
theorem parseOrder_success_eq (m : Matcher) (speech : String) (b : SubBest)
    (h : normalizeSpeech speech ≠ [])
    (hp : (itemPhase m (normalizeSpeech speech)).1 = some b)
    (hs : ¬ qmk 5 10 < b.score) :
    parseOrder m speech =
      successResult b (normalizeSpeech speech)
        (itemPhase m (normalizeSpeech speech)).2
        (fullSearch m (normalizeSpeech speech)) := by
  unfold parseOrder
  rw [ne_nil_isEmpty_false h]
  simp only [Bool.false_eq_true, if_false]
  rw [hp]
  simp only [if_neg hs]

/-- Inversion: a present `match` payload comes from the success path. -/
theorem parseOrder_result_inv {m : Matcher} {speech : String} {mi : MatchInfo}
    (h : (parseOrder m speech).result = some mi) :
    ∃ b, (itemPhase m (normalizeSpeech speech)).1 = some b ∧
      ¬ (qmk 5 10 < b.score) ∧ mi = successInfo b (normalizeSpeech speech) := by
  by_cases hn : normalizeSpeech speech = []
  · rw [parseOrder_empty_tokens m speech hn] at h
    exact absurd h (by simp)
  · cases hp : (itemPhase m (normalizeSpeech speech)).1 with
    | none =>
        rw [parseOrder_phase_none m speech hn hp] at h
        exact absurd h (by simp [noMatchResult])
    | some b =>
        by_cases hs : qmk 5 10 < b.score
        · rw [parseOrder_weak m speech b hn hp hs] at h
          exact absurd h (by simp [noMatchResult])
        · rw [parseOrder_success_eq m speech b hn hp hs] at h
          have h2 : successInfo b (normalizeSpeech speech) = mi := Option.some.inj h
          exact ⟨b, rfl, hs, h2.symm⟩

/-- Under an index that returns nothing, the inner window scan keeps the
running best unchanged. -/
theorem scanStarts_all_empty {search : List Char → List SearchResult}
    (h : ∀ q, search q = []) (tokens : List (List Char)) (len : Nat) :
    ∀ (starts : List Nat) (best : Option SubBest),
      scanStarts search tokens len starts best = best := by
  intro starts
  induction starts with
  | nil => intro best; rfl
  | cons s rest ih =>
      intro best
      unfold scanStarts
      simp only [h]
      exact ih best

/-- Under an index that returns nothing, the sub-phrase search fails. -/
theorem scanLens_all_empty {search : List Char → List SearchResult}
    (h : ∀ q, search q = []) (tokens : List (List Char)) :
    ∀ len : Nat, scanLens search tokens len none = none := by
  intro len
  induction len with
  | zero => rfl
  | succ n ih =>
      unfold scanLens
      rw [scanStarts_all_empty h tokens (n + 1)]
      exact ih

/-- C8: an utterance that normalises to zero tokens (such as the
all-filler "um yeah please") makes `parseOrder` return `success = false`,
a null match, an empty alternatives list and the dedicated
empty-utterance message, which differs from both no-match messages. -/
theorem c8_empty_utterance :
    (∀ (m : Matcher) (speech : String), normalizeSpeech speech = [] →
      parseOrder m speech =
        ⟨false, none, [], some "No meaningful words found in speech"⟩ ∧
      ("No meaningful words found in speech" : String) ≠ "No matching menu item found" ∧
      ("No meaningful words found in speech" : String) ≠
        "No strong match found. Did you mean one of the alternatives?") ∧
    normalizeSpeech "um yeah please" = [] := by
  constructor
  · intro m speech h
    exact ⟨parseOrder_empty_tokens m speech h, by decide, by decide⟩
  · decide

/-- C8 witness: the theorem applied to the filler-only utterance. -/
theorem c8_empty_utterance_witness :
    parseOrder pizzaMatcher "um yeah please" =
      ⟨false, none, [], some "No meaningful words found in speech"⟩ :=
  (c8_empty_utterance.1 pizzaMatcher "um yeah please" (by decide)).1

/-- C4 counterexample: with an empty menu (empty index) the engine answers
with the GENERIC no-match message — the very message an ordinary failed
match on a populated menu produces — so no distinct error message
identifies the menu problem. -/
theorem c4_empty_menu_counterexample :
    flattenMenu ⟨[]⟩ = [] ∧
    (parseOrder ⟨fun _ => []⟩ "burger").error = some "No matching menu item found" ∧
    (parseOrder pizzaMatcher "salmon").error = some "No matching menu item found" ∧
    (parseOrder ⟨fun _ => []⟩ "burger").error = (parseOrder pizzaMatcher "salmon").error := by
  refine ⟨rfl, by decide, by decide, by decide⟩

/-- C4 (amended): for an empty menu snapshot — no categories, or no items
in any category, hence an index with no results — `parseOrder` never
throws and always returns the well-formed failure
`⟨false, none, [], some msg⟩`, where `msg` is the generic empty-utterance
or no-match message rather than a menu-specific one. -/
theorem c4_empty_menu_amended :
    (∀ (search : List Char → List SearchResult), (∀ q, search q = []) →
      ∀ speech : String,
        parseOrder ⟨search⟩ speech =
          ⟨false, none, [], some "No meaningful words found in speech"⟩ ∨
        parseOrder ⟨search⟩ speech =
          ⟨false, none, [], some "No matching menu item found"⟩) ∧
    (∀ menu : Menu, (∀ c ∈ menu.categories, c.items = []) → flattenMenu menu = []) := by
  constructor
  · intro search h speech
    by_cases hn : normalizeSpeech speech = []
    · exact Or.inl (parseOrder_empty_tokens _ speech hn)
    · refine Or.inr ?_
      have hfull : fullSearch ⟨search⟩ (normalizeSpeech speech) = [] :=
        h (joinTokens (normalizeSpeech speech))
      have hphase : itemPhase ⟨search⟩ (normalizeSpeech speech) = (none, []) := by
        unfold itemPhase
        rw [hfull]
        unfold itemPhase2 findBestSubPhraseMatch
        rw [scanLens_all_empty h]
      rw [parseOrder_phase_none ⟨search⟩ speech hn (by rw [hphase])]
      rw [hphase, hfull]
      rfl
  · intro menu h
    unfold flattenMenu
    rw [List.flatMap_eq_nil_iff]
    intro c hc
    rw [h c hc]
    exact List.map_nil

/-- C4 witness: the amended theorem applied to the empty index and the
utterance "burger". -/
theorem c4_empty_menu_amended_witness :
    parseOrder ⟨fun _ => []⟩ "tofu" =
      ⟨false, none, [], some "No meaningful words found in speech"⟩ ∨
    parseOrder ⟨fun _ => []⟩ "tofu" =
      ⟨false, none, [], some "No matching menu item found"⟩ :=
  c4_empty_menu_amended.1 (fun _ => []) (fun _ => rfl) "tofu"

/-- Membership in the value-filtered remaining tokens. -/
theorem mem_remainingAfterItem (tokens used : List (List Char)) (t : List Char) :
    t ∈ remainingAfterItem tokens used ↔ t ∈ tokens ∧ ¬ t ∈ used := by
  unfold remainingAfterItem
  simp [List.mem_filter]

/-- Filtering a token list against itself leaves nothing. -/
theorem remainingAfterItem_self (tokens : List (List Char)) :
    remainingAfterItem tokens tokens = [] := by
  unfold remainingAfterItem
  rw [List.filter_eq_nil_iff]
  intro t ht
  simp [ht]

/-- The modifier matcher is a no-op on an empty token list. -/
theorem matchModifiers_nil (item : MenuItem) : matchModifiers [] item = ⟨[], []⟩ := rfl

/-- C10: the tokens handed to modifier matching are selected by token
string value (`!usedTokensForItem.includes(t)`), so a duplicated word is
removed at every position ("cheese burger extra cheese" minus the consumed
window "cheese burger" leaves only "extra"); in particular a strong
phase-1 full-phrase match (top score < 0.3) consumes every token, and the
successful result then always carries an empty `matchedModifiers`. -/
theorem c10_value_based_exclusion :
    (∀ (tokens used : List (List Char)) (t : List Char),
      t ∈ remainingAfterItem tokens used ↔ t ∈ tokens ∧ ¬ t ∈ used) ∧
    remainingAfterItem ["cheese".data, "burger".data, "extra".data, "cheese".data]
      ["cheese".data, "burger".data] = ["extra".data] ∧
    (∀ (m : Matcher) (speech : String) (r : SearchResult) (rest : List SearchResult),
      normalizeSpeech speech ≠ [] →
      fullSearch m (normalizeSpeech speech) = r :: rest →
      r.score.getD (qmk 1 1) < qmk 3 10 →
      (parseOrder m speech).success = true ∧
      ∀ mi, (parseOrder m speech).result = some mi → mi.matchedModifiers = []) := by
  refine ⟨mem_remainingAfterItem, by decide, ?_⟩
  intro m speech r rest hn hfr hsc
  have hb : (itemPhase m (normalizeSpeech speech)).1 =
      some ⟨r.item, r.score.getD (qmk 1 1), normalizeSpeech speech⟩ := by
    unfold itemPhase
    rw [hfr]
    simp only [if_pos hsc]
  have hs : ¬ qmk 5 10 < r.score.getD (qmk 1 1) := by
    have h35 : qmk 3 10 < qmk 5 10 := by decide
    exact not_lt.mpr (le_of_lt (lt_trans hsc h35))
  have heq := parseOrder_success_eq m speech _ hn hb hs
  constructor
  · rw [heq]
    rfl
  · intro mi hmi
    rw [heq] at hmi
    have h2 : successInfo ⟨r.item, r.score.getD (qmk 1 1), normalizeSpeech speech⟩
        (normalizeSpeech speech) = mi := Option.some.inj hmi
    rw [← h2]
    show (matchModifiers
      (remainingAfterItem (normalizeSpeech speech) (normalizeSpeech speech)) r.item).matched = []
    rw [remainingAfterItem_self, matchModifiers_nil]

/-- C10 witness: the strong-match clause applied to the pizza menu. -/
theorem c10_value_based_exclusion_witness :
    (parseOrder pizzaMatcher "margherita pizza please").success = true ∧
    ∀ mi, (parseOrder pizzaMatcher "margherita pizza please").result = some mi →
      mi.matchedModifiers = [] :=
  c10_value_based_exclusion.2.2 pizzaMatcher "margherita pizza please"
    ⟨pizzaItem, some (qmk 1 10)⟩ [] (by decide) (by decide) (by decide)

/-- C1: `parseOrder` succeeds exactly when the two-phase item selection
produced a candidate whose score is within the 0.5 acceptance ceiling; a
successful match reports confidence `round((1 − score) × 100) / 100`, and
a failure always carries a null match. -/
theorem c1_acceptance (m : Matcher) (speech : String) :
    ((parseOrder m speech).success = true ↔
      normalizeSpeech speech ≠ [] ∧
      ∃ b, (itemPhase m (normalizeSpeech speech)).1 = some b ∧ b.score ≤ qmk 5 10) ∧
    (∀ mi, (parseOrder m speech).result = some mi →
      ∃ b, (itemPhase m (normalizeSpeech speech)).1 = some b ∧ b.score ≤ qmk 5 10 ∧
        mi.confidence = round2 (qsub (qmk 1 1) b.score)) ∧
    ((parseOrder m speech).success = false → (parseOrder m speech).result = none) := by
  refine ⟨?_, ?_, ?_⟩
  · by_cases hn : normalizeSpeech speech = []
    · rw [parseOrder_empty_tokens m speech hn]
      simp [hn]
    · cases hp : (itemPhase m (normalizeSpeech speech)).1 with
      | none =>
          rw [parseOrder_phase_none m speech hn hp]
          constructor
          · intro hfalse
            exact absurd hfalse (by simp [noMatchResult])
          · rintro ⟨-, b, hb, -⟩
            exact absurd hb (by simp)
      | some b =>
          by_cases hs : qmk 5 10 < b.score
          · rw [parseOrder_weak m speech b hn hp hs]
            constructor
            · intro hfalse
              exact absurd hfalse (by simp [noMatchResult])
            · rintro ⟨-, b2, hb2, hle⟩
              rw [← Option.some.inj hb2] at hle
              exact absurd hle (not_le.mpr hs)
          · rw [parseOrder_success_eq m speech b hn hp hs]
            exact ⟨fun _ => ⟨hn, b, rfl, not_lt.mp hs⟩, fun _ => rfl⟩
  · intro mi hmi
    obtain ⟨b, hb, hs, hmi2⟩ := parseOrder_result_inv hmi
    exact ⟨b, hb, not_lt.mp hs, by rw [hmi2]; rfl⟩
  · intro hf
    cases hr : (parseOrder m speech).result with
    | none => rfl
    | some mi =>
        obtain ⟨b, hb, hs, -⟩ := parseOrder_result_inv hr
        by_cases hn : normalizeSpeech speech = []
        · rw [parseOrder_empty_tokens m speech hn] at hr
          exact absurd hr (by simp)
        · rw [parseOrder_success_eq m speech b hn hb hs] at hf
          exact absurd hf (by simp [successResult])

/-- C1 witness: the accepted pizza match (phase-1 score 0.1 ≤ 0.5). -/
theorem c1_acceptance_witness :
    (parseOrder pizzaMatcher "margherita pizza please").success = true :=
  (c1_acceptance pizzaMatcher "margherita pizza please").1.mpr
    ⟨by decide, ⟨pizzaItem, qmk 1 10, ["margherita".data, "pizza".data]⟩, by decide, by decide⟩

/-- Membership in a filtered-then-mapped list. -/
theorem mem_map_filter {α β : Type} (f : α → β) (p : α → Bool) (l : List α) (r : β) :
    r ∈ (l.filter p).map f ↔ ∃ g, g ∈ l ∧ p g = true ∧ r = f g := by
  rw [List.mem_map]
  constructor
  · rintro ⟨g, hg, hr⟩
    rw [List.mem_filter] at hg
    exact ⟨g, hg.1, hg.2, hr.symm⟩
  · rintro ⟨g, hg, hp, hr⟩
    exact ⟨g, List.mem_filter.mpr ⟨hg, hp⟩, hr.symm⟩

/-- C7: on every successful parse, `remainingRequiredModifiers` holds
exactly the matched item's groups that are required and whose name is not
among the groupNames of the matched modifiers, each packaged with its full
option list. -/
theorem c7_remaining_required (m : Matcher) (speech : String) (mi : MatchInfo)
    (h : (parseOrder m speech).result = some mi) :
    ∃ b, (itemPhase m (normalizeSpeech speech)).1 = some b ∧
      mi.item.name = b.item.name ∧
      ∀ r, r ∈ mi.remainingRequiredModifiers ↔
        ∃ g, g ∈ b.item.modifiers ∧ g.required = true ∧
          ((mi.matchedModifiers.map fun mm => mm.groupName).contains g.name = false) ∧
          r = packageGroup g := by
  obtain ⟨b, hb, hs, hmi⟩ := parseOrder_result_inv h
  refine ⟨b, hb, by rw [hmi]; rfl, ?_⟩
  intro r
  rw [hmi]
  show r ∈ ((b.item.modifiers.filter _).map packageGroup) ↔ _
  rw [mem_map_filter]
  constructor
  · rintro ⟨g, hg, hp, hr⟩
    simp only [decide_eq_true_eq, Bool.decide_and, Bool.and_eq_true, decide_eq_true_eq] at hp
    refine ⟨g, hg, ?_, ?_, hr⟩
    · cases hreq : g.required with
      | false => rw [hreq] at hp; exact absurd hp.1 (by simp)
      | true => rfl
    · cases hc : ((matchModifiers (remainingAfterItem (normalizeSpeech speech) b.usedTokens)
          b.item).matched.map fun mm => mm.groupName).contains g.name with
      | false => exact hc
      | true => exact absurd hc (by simpa using hp.2)
  · rintro ⟨g, hg, hreq, hc, hr⟩
    refine ⟨g, hg, ?_, hr⟩
    simp only [decide_eq_true_eq, Bool.decide_and, Bool.and_eq_true, decide_eq_true_eq]
    refine ⟨by rw [hreq], ?_⟩
    have hc2 : ((matchModifiers (remainingAfterItem (normalizeSpeech speech) b.usedTokens)
        b.item).matched.map fun mm => mm.groupName).contains g.name = false := hc
    intro habs
    rw [habs] at hc2
    exact absurd hc2 (by simp)

/-- C7 witness: the burger's required, unmatched "Side Choice" group is
surfaced with both options on an otherwise successful match. -/
theorem c7_remaining_required_witness :
    ∃ b, (itemPhase burgerMatcher (normalizeSpeech "burger")).1 = some b ∧
      miBurger.item.name = b.item.name ∧
      ∀ r, r ∈ miBurger.remainingRequiredModifiers ↔
        ∃ g, g ∈ b.item.modifiers ∧ g.required = true ∧
          ((miBurger.matchedModifiers.map fun mm => mm.groupName).contains g.name = false) ∧
          r = packageGroup g :=
  c7_remaining_required burgerMatcher "burger" miBurger (by decide)

/-- C6: every successful parse prices the order as
`round((item.basePrice + Σ matchedModifier.optionPrice) × 100) / 100`, the
sum ranging over exactly the matched modifiers; a default option that is
not textually matched (the steak's default "oat") contributes nothing, and
the spec's example (base 14.99, modifiers −0.99 and +2.004) rounds to
exactly two decimals: 16.00. -/
theorem c6_price_formula :
    (∀ (m : Matcher) (speech : String) (mi : MatchInfo),
      (parseOrder m speech).result = some mi →
      mi.calculatedPrice = round2 (qadd mi.item.price
        (mi.matchedModifiers.foldl (fun s x => qadd s x.optionPrice) (qmk 0 1)))) ∧
    (parseOrder steakMatcher "steak ham fig").result = some steakMi ∧
    steakMi.matchedModifiers =
      [⟨"Extras", "ham", qmk (-99) 100⟩, ⟨"Extras", "fig", qmk 2004 1000⟩] ∧
    steakMi.calculatedPrice = qmk 16 1 ∧
    (qmul steakMi.calculatedPrice (qmk 100 1)).den = 1 := by
  refine ⟨?_, by decide, by decide, by decide, by decide⟩
  intro m speech mi h
  obtain ⟨b, hb, hs, hmi⟩ := parseOrder_result_inv h
  rw [hmi]
  rfl

/-- C6 witness: the pricing clause applied to the steak order. -/
theorem c6_price_formula_witness :
    steakMi.calculatedPrice = round2 (qadd steakMi.item.price
      (steakMi.matchedModifiers.foldl (fun s x => qadd s x.optionPrice) (qmk 0 1))) :=
  c6_price_formula.1 steakMatcher "steak ham fig" steakMi (by decide)

/-! ## Edit-distance lemmas (for C5) -/

/-- Any two sufficient fuels give `levenshteinF` the same value. -/
theorem levenshteinF_congr :
    ∀ (f g : Nat) (a b : List Char), a.length + b.length < f → a.length + b.length < g →
      levenshteinF f a b = levenshteinF g a b := by
  intro f
  induction f with
  | zero => intro g a b hf _; omega
  | succ f ih =>
      intro g a b hf hg
      cases g with
      | zero => omega
      | succ g =>
          cases a with
          | nil => cases b <;> rfl
          | cons x xs =>
              cases b with
              | nil => rfl
              | cons y ys =>
                  simp only [List.length_cons] at hf hg
                  simp only [levenshteinF]
                  rw [ih g xs ys (by omega) (by omega),
                    ih g xs (y :: ys) (by simp only [List.length_cons]; omega)
                      (by simp only [List.length_cons]; omega),
                    ih g (x :: xs) ys (by simp only [List.length_cons]; omega)
                      (by simp only [List.length_cons]; omega)]

/-- A sufficient fuel computes `levenshtein`. -/
theorem levenshteinF_eq (f : Nat) (a b : List Char) (h : a.length + b.length < f) :
    levenshteinF f a b = levenshtein a b :=
  levenshteinF_congr f (a.length + b.length + 1) a b h (by omega)

/-- Any two sufficient fuels give `levFullF` the same value. -/
theorem levFullF_congr :
    ∀ (f g : Nat) (a b : List Char), a.length + b.length < f → a.length + b.length < g →
      levFullF f a b = levFullF g a b := by
  intro f
  induction f with
  | zero => intro g a b hf _; omega
  | succ f ih =>
      intro g a b hf hg
      cases g with
      | zero => omega
      | succ g =>
          cases a with
          | nil => cases b <;> rfl
          | cons x xs =>
              cases b with
              | nil => rfl
              | cons y ys =>
                  simp only [List.length_cons] at hf hg
                  simp only [levFullF]
                  rw [ih g xs ys (by omega) (by omega),
                    ih g xs (y :: ys) (by simp only [List.length_cons]; omega)
                      (by simp only [List.length_cons]; omega),
                    ih g (x :: xs) ys (by simp only [List.length_cons]; omega)
                      (by simp only [List.length_cons]; omega)]

/-- A sufficient fuel computes `levFull`. -/
theorem levFullF_eq (f : Nat) (a b : List Char) (h : a.length + b.length < f) :
    levFullF f a b = levFull a b :=
  levFullF_congr f (a.length + b.length + 1) a b h (by omega)

/-- `levenshtein` against the empty string measures length. -/
theorem levenshtein_nil_left (b : List Char) : levenshtein [] b = b.length := by
  cases b <;> rfl

/-- `levenshtein` of the empty string measures length. -/
theorem levenshtein_nil_right (a : List Char) : levenshtein a [] = a.length := by
  cases a <;> rfl

/-- `levFull` against the empty string measures length. -/
theorem levFull_nil_left (b : List Char) : levFull [] b = b.length := by
  cases b <;> rfl

/-- `levFull` of the empty string measures length. -/
theorem levFull_nil_right (a : List Char) : levFull a [] = a.length := by
  cases a <;> rfl

/-- Unfolding equation of `levenshtein` on two nonempty strings. -/
theorem levenshtein_cons_cons (x : Char) (xs : List Char) (y : Char) (ys : List Char) :
    levenshtein (x :: xs) (y :: ys) =
      if x = y then levenshtein xs ys
      else 1 + min (levenshtein xs (y :: ys))
        (min (levenshtein (x :: xs) ys) (levenshtein xs ys)) := by
  have e : levenshtein (x :: xs) (y :: ys) =
      if x = y then levenshteinF ((x :: xs).length + (y :: ys).length) xs ys
      else 1 + min (levenshteinF ((x :: xs).length + (y :: ys).length) xs (y :: ys))
        (min (levenshteinF ((x :: xs).length + (y :: ys).length) (x :: xs) ys)
          (levenshteinF ((x :: xs).length + (y :: ys).length) xs ys)) := rfl
  rw [e, levenshteinF_eq _ xs ys (by simp only [List.length_cons]; omega),
    levenshteinF_eq _ xs (y :: ys) (by simp only [List.length_cons]; omega),
    levenshteinF_eq _ (x :: xs) ys (by simp only [List.length_cons]; omega)]

/-- Unfolding equation of `levFull` on two nonempty strings. -/
theorem levFull_cons_cons (x : Char) (xs : List Char) (y : Char) (ys : List Char) :
    levFull (x :: xs) (y :: ys) =
      min (1 + levFull xs (y :: ys))
        (min (1 + levFull (x :: xs) ys) ((if x = y then 0 else 1) + levFull xs ys)) := by
  have e : levFull (x :: xs) (y :: ys) =
      min (1 + levFullF ((x :: xs).length + (y :: ys).length) xs (y :: ys))
        (min (1 + levFullF ((x :: xs).length + (y :: ys).length) (x :: xs) ys)
          ((if x = y then 0 else 1) +
            levFullF ((x :: xs).length + (y :: ys).length) xs ys)) := rfl
  rw [e, levFullF_eq _ xs ys (by simp only [List.length_cons]; omega),
    levFullF_eq _ xs (y :: ys) (by simp only [List.length_cons]; omega),
    levFullF_eq _ (x :: xs) ys (by simp only [List.length_cons]; omega)]

/-- Deleting the head of the first string costs at most one. -/
theorem levFull_cons_left_le (x : Char) (xs b : List Char) :
    levFull (x :: xs) b ≤ 1 + levFull xs b := by
  cases b with
  | nil =>
      rw [levFull_nil_right, levFull_nil_right]
      simp only [List.length_cons]
      omega
  | cons y ys =>
      rw [levFull_cons_cons]
      exact min_le_left _ _

/-- Deleting the head of the second string costs at most one. -/
theorem levFull_cons_right_le (a : List Char) (y : Char) (b : List Char) :
    levFull a (y :: b) ≤ 1 + levFull a b := by
  cases a with
  | nil =>
      rw [levFull_nil_left, levFull_nil_left]
      simp only [List.length_cons]
      omega
  | cons x xs =>
      rw [levFull_cons_cons]
      exact le_trans (min_le_right _ _) (min_le_left _ _)

/-- Adding a head to the first string costs at most one. -/
theorem levFull_le_cons_left (x : Char) (xs : List Char) :
    ∀ b : List Char, levFull xs b ≤ 1 + levFull (x :: xs) b := by
  intro b
  induction b with
  | nil =>
      rw [levFull_nil_right, levFull_nil_right]
      simp only [List.length_cons]
      omega
  | cons y ys ih =>
      rw [levFull_cons_cons]
      have h1 := levFull_cons_right_le xs y ys
      by_cases hxy : x = y
      · rw [if_pos hxy]
        omega
      · rw [if_neg hxy]
        omega

/-- Adding a head to the second string costs at most one. -/
theorem levFull_le_cons_right (y : Char) (ys : List Char) :
    ∀ a : List Char, levFull a ys ≤ 1 + levFull a (y :: ys) := by
  intro a
  induction a with
  | nil =>
      rw [levFull_nil_left, levFull_nil_left]
      simp only [List.length_cons]
      omega
  | cons x xs ih =>
      rw [levFull_cons_cons]
      have h1 := levFull_cons_left_le x xs ys
      by_cases hxy : x = y
      · rw [if_pos hxy]
        omega
      · rw [if_neg hxy]
        omega

/-- The distance of a string to itself is zero. -/
theorem levFull_self : ∀ a : List Char, levFull a a = 0 := by
  intro a
  induction a with
  | nil => rfl
  | cons x xs ih =>
      rw [levFull_cons_cons, if_pos rfl, ih]
      omega

/-- The source's shortcut recurrence computes the standard distance. -/
theorem levenshtein_eq_levFull : ∀ (a b : List Char), levenshtein a b = levFull a b := by
  suffices H : ∀ (n : Nat) (a b : List Char), a.length + b.length ≤ n →
      levenshtein a b = levFull a b from fun a b => H (a.length + b.length) a b le_rfl
  intro n
  induction n with
  | zero =>
      intro a b h
      cases a with
      | nil =>
          cases b with
          | nil => rfl
          | cons y ys => simp at h
      | cons x xs => simp at h
  | succ n ih =>
      intro a b h
      cases a with
      | nil => rw [levFull_nil_left, levenshtein_nil_left]
      | cons x xs =>
          cases b with
          | nil => rw [levFull_nil_right, levenshtein_nil_right]
          | cons y ys =>
              simp only [List.length_cons] at h
              rw [levenshtein_cons_cons, levFull_cons_cons]
              by_cases hxy : x = y
              · rw [if_pos hxy, if_pos hxy]
                rw [ih xs ys (by omega)]
                have h1 := levFull_le_cons_right y ys xs
                have h2 := levFull_le_cons_left x xs ys
                omega
              · rw [if_neg hxy, if_neg hxy]
                rw [ih xs ys (by omega),
                  ih xs (y :: ys) (by simp only [List.length_cons]; omega),
                  ih (x :: xs) ys (by simp only [List.length_cons]; omega)]
                omega

/-- C5: `fuzzyWordMatch` holds exactly when the standard unit-cost
dynamic-programming Levenshtein distance is within the tolerance set by
the longer string's length (0 for length ≤ 3, 1 for ≤ 5, 2 for ≤ 8, else
3); a single-character mismatch at length ≤ 3 never matches, and
"sourdough" vs "sourdogh" does match. -/
theorem c5_close_match_iff :
    (∀ a b : List Char, fuzzyWordMatch a b = true ↔
      levFull a b ≤ tolerance (max a.length b.length)) ∧
    (∀ a b : List Char, max a.length b.length ≤ 3 → levFull a b = 1 →
      fuzzyWordMatch a b = false) ∧
    fuzzyWordMatch "sourdough".data "sourdogh".data = true := by
  have hiff : ∀ a b : List Char, fuzzyWordMatch a b = true ↔
      levFull a b ≤ tolerance (max a.length b.length) := by
    intro a b
    unfold fuzzyWordMatch tolerance
    by_cases hab : a = b
    · rw [if_pos hab, hab, levFull_self]
      simp
    · rw [if_neg hab, levenshtein_eq_levFull]
      by_cases h3 : max a.length b.length ≤ 3
      · rw [if_pos h3, if_pos h3]
        simp
      · rw [if_neg h3, if_neg h3]
        by_cases h5 : max a.length b.length ≤ 5
        · rw [if_pos h5, if_pos h5]
          simp
        · rw [if_neg h5, if_neg h5]
          by_cases h8 : max a.length b.length ≤ 8
          · rw [if_pos h8, if_pos h8]
            simp
          · rw [if_neg h8, if_neg h8]
            simp
  refine ⟨hiff, ?_, by decide⟩
  intro a b h3 h1
  cases hf : fuzzyWordMatch a b with
  | false => rfl
  | true =>
      have hle := (hiff a b).mp hf
      unfold tolerance at hle
      rw [if_pos h3] at hle
      omega

/-- C5 witness: the theorem instantiated at "cat"/"cab" (single-character
mismatch at length 3, rejected) and at the sourdough example. -/
theorem c5_close_match_iff_witness :
    fuzzyWordMatch "cat".data "cab".data = false ∧
    levFull "sourdough".data "sourdogh".data ≤
      tolerance (max "sourdough".data.length "sourdogh".data.length) :=
  ⟨c5_close_match_iff.2.1 "cat".data "cab".data (by decide) (by decide),
    (c5_close_match_iff.1 "sourdough".data "sourdogh".data).mp (by decide)⟩

/-! ## Modifier-matcher lemmas (C3, C9) -/

/-- What a successful `pickOption` guarantees: the entry comes from the
candidate list, and a single-select group is only picked when no accepted
match already carries its name. -/
theorem pickOption_sound :
    ∀ (opts : List OptEntry) (matched : List MatchedModifier) (c cn : List Char) (o : OptEntry),
      pickOption matched c cn opts = some o →
      o ∈ opts ∧ (o.group.multiSelect = false →
        (matched.any fun mm => mm.groupName = o.group.name) = false) := by
  intro opts
  induction opts with
  | nil => intro matched c cn o h; exact absurd h (by simp [pickOption])
  | cons p rest ih =>
      intro matched c cn o h
      rw [pickOption] at h
      split at h
      · next hcond =>
          obtain rfl : p = o := Option.some.inj h
          refine ⟨List.mem_cons_self p rest, ?_⟩
          intro hms
          cases hany : (matched.any fun mm => decide (mm.groupName = p.group.name)) with
          | false => rfl
          | true => exact absurd ⟨hany, by rw [hms]; simp⟩ hcond.2
      · next hcond =>
          obtain ⟨hmem, hrule⟩ := ih matched c cn o h
          exact ⟨List.mem_cons_of_mem p hmem, hrule⟩

/-- Every candidate option's group is a modifier group of the item. -/
theorem buildOptions_group_mem {item : MenuItem} {o : OptEntry}
    (h : o ∈ buildOptions item) : o.group ∈ item.modifiers := by
  unfold buildOptions at h
  rw [List.mem_flatMap] at h
  obtain ⟨g, hg, hmem⟩ := h
  rw [List.mem_map] at hmem
  obtain ⟨opt, _, rfl⟩ := hmem
  exact hg

/-- One window step cannot lift the count of a fully single-select name
above one. -/
theorem stepWindow_count_le (item : MenuItem) (tokens : List (List Char)) (N : String)
    (hN : ∀ g ∈ item.modifiers, g.name = N → g.multiSelect = false)
    (st : ModState) (w : Nat × Nat)
    (h : (st.matched.countP fun mm => decide (mm.groupName = N)) ≤ 1) :
    (((stepWindow (buildOptions item) tokens st w).matched.countP
      fun mm => decide (mm.groupName = N)) ≤ 1) := by
  simp only [stepWindow]
  split
  · exact h
  · cases hpick : pickOption st.matched
        (joinTokens (((List.range w.1).map fun i => i + w.2).map fun i => tokens.getD i []))
        ((((List.range w.1).map fun i => i + w.2).map fun i => tokens.getD i []).flatten)
        (buildOptions item) with
    | none => exact h
    | some o =>
        simp only [List.countP_append]
        by_cases hname : o.group.name = N
        · have hmem := (pickOption_sound _ _ _ _ _ hpick).1
          have hms : o.group.multiSelect = false :=
            hN o.group (buildOptions_group_mem hmem) hname
          have hany := (pickOption_sound _ _ _ _ _ hpick).2 hms
          have hzero : (st.matched.countP fun mm => decide (mm.groupName = N)) = 0 := by
            rw [List.countP_eq_zero]
            intro mm hmm
            simp only [decide_eq_true_eq]
            intro habs
            rw [List.any_eq_false] at hany
            exact hany mm hmm (by simp [habs, hname])
          rw [hzero]
          simp [hname]
        · have : (([⟨o.group.name, o.option.name, o.option.price⟩] :
              List MatchedModifier).countP fun mm => decide (mm.groupName = N)) = 0 := by
            simp [hname]
          omega

/-- C3: for any group name all of whose groups on the item are
single-select, the matched-modifier list never carries more than one entry
with that name, even when several option names occur in the tokens; the
first option matched in search order is kept (the bread example matches
only "rye"), while a multi-select group may contribute several entries
(the steak's "Extras" contributes two). -/
theorem c3_single_select_cardinality :
    (∀ (item : MenuItem) (tokens : List (List Char)) (N : String),
      (∀ g ∈ item.modifiers, g.name = N → g.multiSelect = false) →
      ((matchModifiers tokens item).matched.countP fun mm => decide (mm.groupName = N)) ≤ 1) ∧
    (matchModifiers ["rye".data, "oat".data] breadItem).matched =
      [⟨"Bread Choice", "rye", qmk 0 1⟩] ∧
    ((matchModifiers ["ham".data, "fig".data] steakItem).matched.countP
      fun mm => decide (mm.groupName = "Extras")) = 2 := by
  refine ⟨?_, by decide, by decide⟩
  intro item tokens N hN
  simp only [matchModifiers]
  split
  · simp
  · exact foldlInvariant _ (fun st => (st.matched.countP fun mm => decide (mm.groupName = N)) ≤ 1)
      (fun st w hst => stepWindow_count_le item tokens N hN st w hst)
      (windowList tokens.length) ⟨[], []⟩ (by simp)

/-- C3 witness: the cardinality clause applied to the bread group with
both of its option names present in the tokens. -/
theorem c3_single_select_cardinality_witness :
    ((matchModifiers ["rye".data, "oat".data] breadItem).matched.countP
      fun mm => decide (mm.groupName = "Bread Choice")) ≤ 1 :=
  c3_single_select_cardinality.1 breadItem ["rye".data, "oat".data] "Bread Choice" (by decide)

/-- Projecting the recording away from one instrumented step recovers the
source step. -/
theorem stepWindowW_proj (opts : List OptEntry) (tokens : List (List Char))
    (st : ModStateW) (w : Nat × Nat) :
    ModState.mk (stepWindowW opts tokens st w).matched (stepWindowW opts tokens st w).used =
      stepWindow opts tokens ⟨st.matched, st.used⟩ w := by
  simp only [stepWindowW, stepWindow]
  split
  · rfl
  · cases hpick : pickOption st.matched
        (joinTokens (((List.range w.1).map fun i => i + w.2).map fun i => tokens.getD i []))
        ((((List.range w.1).map fun i => i + w.2).map fun i => tokens.getD i []).flatten)
        opts with
    | none => rfl
    | some o => rfl

/-- Projecting the recording away from the instrumented fold recovers the
source fold. -/
theorem foldW_proj (opts : List OptEntry) (tokens : List (List Char)) :
    ∀ (ws : List (Nat × Nat)) (st : ModStateW),
      ModState.mk ((ws.foldl (stepWindowW opts tokens) st).matched)
          ((ws.foldl (stepWindowW opts tokens) st).used) =
        ws.foldl (stepWindow opts tokens) ⟨st.matched, st.used⟩ := by
  intro ws
  induction ws with
  | nil => intro st; rfl
  | cons w ws ih =>
      intro st
      simp only [List.foldl_cons]
      rw [ih (stepWindowW opts tokens st w), stepWindowW_proj]

/-- The invariant of the instrumented fold: the used-index set is exactly
the concatenation of the recorded windows, the windows are pairwise
disjoint, and there is one window per accepted match. -/
def WindowInv (st : ModStateW) : Prop :=
  st.used = st.windows.flatten ∧ st.windows.Pairwise List.Disjoint ∧
    st.windows.length = st.matched.length

/-- One instrumented step preserves the window invariant. -/
theorem stepWindowW_invariant (opts : List OptEntry) (tokens : List (List Char))
    (st : ModStateW) (w : Nat × Nat) (h : WindowInv st) :
    WindowInv (stepWindowW opts tokens st w) := by
  simp only [stepWindowW]
  split
  · exact h
  · next hguard =>
      cases hpick : pickOption st.matched
          (joinTokens (((List.range w.1).map fun i => i + w.2).map fun i => tokens.getD i []))
          ((((List.range w.1).map fun i => i + w.2).map fun i => tokens.getD i []).flatten)
          opts with
      | none => exact h
      | some o =>
          obtain ⟨hused, hpw, hlen⟩ := h
          have hfresh : ∀ i ∈ (List.range w.1).map (fun i => i + w.2), ¬ i ∈ st.used := by
            intro i hi habs
            apply hguard
            rw [List.any_eq_true]
            exact ⟨i, hi, by simp [habs]⟩
          refine ⟨?_, ?_, ?_⟩
          · simp only [hused, List.flatten_append, List.flatten_cons, List.flatten_nil,
              List.append_nil]
          · rw [List.pairwise_append]
            refine ⟨hpw, by simp, ?_⟩
            intro a ha b hb
            rw [List.mem_singleton] at hb
            subst hb
            intro i hia hib
            exact hfresh i hib (by rw [hused]; exact List.mem_flatten.mpr ⟨a, ha, hia⟩)
          · simp [hlen]

/-- C9: the index windows consumed by distinct accepted modifier matches
are pairwise disjoint (one recorded window per match), and the returned
`unmatchedTokens` are exactly the input tokens at positions covered by no
window, in their original order.  `matchModifiersW` is the source matcher
instrumented to record each accepted window; the first two conjuncts state
that the instrumentation does not change the result. -/
theorem c9_disjoint_windows (tokens : List (List Char)) (item : MenuItem) :
    (matchModifiers tokens item).matched = (matchModifiersW tokens item).matched ∧
    (matchModifiers tokens item).unmatchedTokens = (matchModifiersW tokens item).unmatchedTokens ∧
    (matchModifiersW tokens item).windows.Pairwise List.Disjoint ∧
    (matchModifiersW tokens item).windows.length = (matchModifiersW tokens item).matched.length ∧
    (matchModifiersW tokens item).unmatchedTokens = filterIdx tokens
      (fun i => ¬ ((matchModifiersW tokens item).windows.any fun w => w.contains i)) := by
  by_cases hc : (tokens.isEmpty = true ∨ item.modifiers.isEmpty = true)
  · have e1 : matchModifiers tokens item = ⟨[], tokens⟩ := by
      simp only [matchModifiers, if_pos hc]
    have e2 : matchModifiersW tokens item = ⟨[], tokens, []⟩ := by
      simp only [matchModifiersW, if_pos hc]
    rw [e1, e2]
    refine ⟨rfl, rfl, List.Pairwise.nil, rfl, ?_⟩
    unfold filterIdx
    simp [List.filter_true]
  · simp only [matchModifiers, matchModifiersW, if_neg hc]
    have hproj := foldW_proj (buildOptions item) tokens (windowList tokens.length) ⟨[], [], []⟩
    have hmatched : ((windowList tokens.length).foldl
        (stepWindowW (buildOptions item) tokens) ⟨[], [], []⟩).matched =
        ((windowList tokens.length).foldl
          (stepWindow (buildOptions item) tokens) ⟨[], []⟩).matched := by
      rw [← hproj]
    have husedeq : ((windowList tokens.length).foldl
        (stepWindowW (buildOptions item) tokens) ⟨[], [], []⟩).used =
        ((windowList tokens.length).foldl
          (stepWindow (buildOptions item) tokens) ⟨[], []⟩).used := by
      rw [← hproj]
    have hinv : WindowInv ((windowList tokens.length).foldl
        (stepWindowW (buildOptions item) tokens) ⟨[], [], []⟩) :=
      foldlInvariant _ WindowInv
        (fun st w hst => stepWindowW_invariant (buildOptions item) tokens st w hst)
        (windowList tokens.length) ⟨[], [], []⟩
        (by unfold WindowInv; exact ⟨rfl, List.Pairwise.nil, rfl⟩)
    obtain ⟨hused, hpw, hlen⟩ := hinv
    refine ⟨hmatched.symm, ?_, hpw, by rw [hlen], ?_⟩
    · unfold filterIdx
      congr 1
      apply List.filter_congr
      intro ai _
      rw [husedeq]
    · unfold filterIdx
      congr 1
      apply List.filter_congr
      intro ai _
      rw [hused, decide_eq_decide, not_iff_not]
      simp [List.any_eq_true, List.mem_flatten]

/-! ## C2: counterexample and amended characterisation -/

/-- C2 counterexample: with two distinct exact matches at the same window
length (both clamped adjusted scores are 0), the code keeps the LATER
window (its unclamped adjusted score is compared against the stored
clamped 0), while the claim's minimal-score/earlier-wins-ties rule keeps
the earlier one: the two selections disagree on this input. -/
theorem c2_subphrase_counterexample :
    findBestSubPhraseMatch searchC2 toksC2 =
      some ⟨itemY, qmk 0 1, ["t2".data, "t3".data]⟩ ∧
    claimFindBestSubPhraseMatch searchC2 toksC2 =
      some ⟨itemX, qmk 0 1, ["t1".data, "t2".data]⟩ ∧
    claimFindBestSubPhraseMatch searchC2 toksC2 ≠ findBestSubPhraseMatch searchC2 toksC2 :=
  ⟨by decide, by decide, by decide⟩

/-- The inner window scan is the fold of the corrected replacement rule
over the window candidates of one length. -/
theorem scanStarts_eq_fold (search : List Char → List SearchResult)
    (tokens : List (List Char)) (len : Nat) :
    ∀ (starts : List Nat) (oc : Option Cand),
      scanStarts search tokens len starts (oc.map candToBest) =
        ((starts.filterMap (candOf search tokens len)).foldl chooseCand oc).map candToBest := by
  intro starts
  induction starts with
  | nil => intro oc; rfl
  | cons s rest ih =>
      intro oc
      rw [scanStarts, List.filterMap_cons]
      unfold candOf
      cases hres : search (joinTokens ((tokens.drop s).take len)) with
      | nil =>
          exact ih oc
      | cons r rs =>
          cases oc with
          | none =>
              exact ih (some ⟨r.item,
                qsub (r.score.getD (qmk 1 1)) (qmul (qmk (len : Int) 1) (qmk 2 100)),
                (tokens.drop s).take len⟩)
          | some b0 =>
              simp only [Option.map_some', List.foldl_cons, chooseCand, candToBest]
              by_cases hlt : qsub (r.score.getD (qmk 1 1)) (qmul (qmk (len : Int) 1) (qmk 2 100)) <
                  qmax (qmk 0 1) b0.adjusted
              · rw [if_pos hlt, if_pos hlt]
                exact ih (some ⟨r.item,
                  qsub (r.score.getD (qmk 1 1)) (qmul (qmk (len : Int) 1) (qmk 2 100)),
                  (tokens.drop s).take len⟩)
              · rw [if_neg hlt, if_neg hlt]
                exact ih (some b0)

/-- The outer level scan is the level-by-level selection. -/
theorem scanLens_eq_select (search : List Char → List SearchResult)
    (tokens : List (List Char)) :
    ∀ (len : Nat) (oc : Option Cand),
      scanLens search tokens len (oc.map candToBest) =
        (selectLevels search tokens len oc).map candToBest := by
  intro len
  induction len with
  | zero => intro oc; rfl
  | succ n ih =>
      intro oc
      rw [scanLens, selectLevels]
      simp only [windowCands]
      rw [scanStarts_eq_fold search tokens (n + 1) (List.range (tokens.length - (n + 1) + 1)) oc]
      cases hacc : (List.range (tokens.length - (n + 1) + 1)).filterMap
          (candOf search tokens (n + 1)) |>.foldl chooseCand oc with
      | none =>
          exact ih none
      | some c =>
          simp only [Option.map_some', candToBest]
          by_cases hstop : qmax (qmk 0 1) c.adjusted < qmk 3 10
          · rw [if_pos hstop, if_pos hstop]
            rfl
          · rw [if_neg hstop, if_neg hstop]
            exact ih (some c)

/-- C2 (amended): the sub-phrase search examines contiguous windows from
the longest length down to 1, left to right within a length, scores each
window's top result as `max(0, rawScore − 0.02 × len)`, and stops after
any completed length level whose best clamped score is below 0.3 — but
the replacement rule compares the new window's UNCLAMPED adjusted score
against the stored CLAMPED best score, so an earlier window wins ties
except when clamping at 0 is involved, where a later window with a lower
unclamped score replaces the stored best.  `amendedFindBest` is that
selection written as a fold over the examined candidates; it agrees with
the source on every index and token list. -/
theorem c2_subphrase_amended (search : List Char → List SearchResult)
    (tokens : List (List Char)) :
    findBestSubPhraseMatch search tokens = amendedFindBest search tokens := by
  unfold findBestSubPhraseMatch amendedFindBest
  have h := scanLens_eq_select search tokens tokens.length none
  simpa using h

end FuzzyMenuMatcher
